import Mathlib

/-!
Verification of the reading-assistance OCR overlay's decision and
post-processing layer.

The development shallowly embeds the JavaScript source:
* the Line Filter (`filterOCRLine` in `src/ocr/js/index.js`),
* the frame differ and change-detection state machine
  (`ChangeDetector` in the change-detection module),
* the detection reducer (`boxesOverlap`, `mergeOverlappingBoxes`,
  `detectTextRegions`) and the recognition reducer
  (`decodeMeikiOCROutput`) of the MeikiOCR engine module.

Strings are modelled as `List Char`; JavaScript numbers as `ℚ`
(all the code's numeric decisions are comparisons, min/max, floors,
and exact small-denominator arithmetic); the mutable module state is
threaded explicitly.
-/

namespace Ushio

/-! ## Line Filter (`filterOCRLine`, src/ocr/js/index.js)

JS step 1: `text.replace(/^[\x00-\x7F]+|[\x00-\x7F]+$/g, '')` strips the
maximal ASCII run at the start and at the end of the string. -/

/-- A character in the `\x00`-`\x7F` range (the regex's ASCII class). -/
def isAsciiCh (c : Char) : Bool := c.val ≤ 127

/-- Strip the leading run of ASCII characters. -/
def stripLeadingAscii (l : List Char) : List Char := l.dropWhile isAsciiCh

/-- Strip the trailing run of ASCII characters. -/
def stripTrailingAscii (l : List Char) : List Char :=
  (l.reverse.dropWhile isAsciiCh).reverse

/-- The whole edge strip: `replace(/^[\x00-\x7F]+|[\x00-\x7F]+$/g, '')`. -/
def stripAscii (l : List Char) : List Char := stripTrailingAscii (stripLeadingAscii l)

/-- JS `replaceAll("cc", "c")`: collapse doubled occurrences of `c`,
scanning left to right over non-overlapping pairs. -/
def collapseDouble (c : Char) : List Char → List Char
  | a :: b :: rest =>
      if a = c ∧ b = c then c :: collapseDouble c rest
      else a :: collapseDouble c (b :: rest)
  | l => l

/-- `replaceAll("(", "（")` and `replaceAll(")", "）")`, per character. -/
def parenFix (c : Char) : Char :=
  if c = '(' then '（' else if c = ')' then '）' else c

/-- `replaceAll("―", "ー")`, per character. -/
def dashFix (c : Char) : Char := if c = '―' then 'ー' else c

/-- The "fix incomplete quotations" step for one opening/closing pair:
append the closer when only the opener occurs, prepend the opener when
only the closer occurs. -/
def balanceQuotePair (op cl : Char) (l : List Char) : List Char :=
  if l.contains op ∧ ¬l.contains cl then l ++ [cl]
  else if ¬l.contains op ∧ l.contains cl then op :: l
  else l

/-- JavaScript's whitespace class (used by `String.prototype.trim`). -/
def isJsWs (c : Char) : Bool :=
  c ∈ ['\t', '\n', '\u000B', '\u000C', '\r', ' ', ' ', ' ',
       ' ', ' ', ' ', ' ', ' ', ' ', ' ',
       ' ', ' ', ' ', ' ', ' ', ' ', ' ',
       ' ', '　', '﻿']

/-- JS `String.prototype.trim`. -/
def trimJs (l : List Char) : List Char :=
  ((l.dropWhile isJsWs).reverse.dropWhile isJsWs).reverse

/-- The Line Filter's normalization chain, in the source's order:
ASCII edge strip; collapse `」」` and `「「`; ASCII parens to full-width;
balance the `「」` pair and then the `（）` pair; `―` to `ー`; trim. -/
def normCore (l : List Char) : List Char :=
  trimJs
    (List.map dashFix
      (balanceQuotePair '（' '）'
        (balanceQuotePair '「' '」'
          (List.map parenFix
            (collapseDouble '「'
              (collapseDouble '」'
                (stripAscii l)))))))

/-- Normalization including the final emptiness check: the source
returns `null` when the trimmed result is empty. -/
def normalizeLine (l : List Char) : Option (List Char) :=
  let f := normCore l
  if f = [] then none else some f

/-- `MAX_RECENT_LINES` from the source. -/
def MAX_RECENT_LINES : ℕ := 10

/-- `filterOCRLine` with the module-level `recentLines` buffer threaded
explicitly.  The repeat check is the source's
`recentLines.at(recentLines.length) == filtered`: `.at` at index
`length` is out of range, which JavaScript renders as `undefined`
(modelled by `List.get?` at that index returning `none`), so the
comparison is against no stored line. -/
def filterOCRLine (recent : List (List Char)) (text : List Char) :
    Option (List Char) × List (List Char) :=
  match normalizeLine text with
  | none => (none, recent)
  | some t =>
      if recent.get? recent.length = some t then (none, recent)
      else
        let r := recent ++ [t]
        (some t, if MAX_RECENT_LINES < r.length then r.drop 1 else r)

/-! ## Change Detection module (`ChangeDetector`)

`compareFrames` walks the two RGBA byte arrays four bytes at a time,
counts the pixels whose summed absolute RGB difference exceeds the
per-pixel threshold, and divides by the pixel count.  A frame is
modelled as its pixel list. -/

/-- One RGBA pixel of an `ImageData` buffer. -/
structure Pixel where
  r : ℕ
  g : ℕ
  b : ℕ
  a : ℕ
deriving DecidableEq

/-- `Math.abs(data1[i] - data2[i])` on byte values. -/
def absDiff (x y : ℕ) : ℕ := ((x : ℤ) - (y : ℤ)).natAbs

/-- The summed absolute RGB difference of one pixel pair (alpha skipped). -/
def pixelDiff (p q : Pixel) : ℕ := absDiff p.r q.r + absDiff p.g q.g + absDiff p.b q.b

/-- `ChangeDetector.compareFrames` with pixel-diff threshold `thr`:
changed-pixel count over total pixel count. -/
def compareFrames (f1 f2 : List Pixel) (thr : ℕ) : ℚ :=
  (((f1.zip f2).countP fun pq => thr < pixelDiff pq.1 pq.2 : ℕ) : ℚ) / (f1.length : ℚ)

/-- The state-machine states of `ChangeDetector`
(strings `idle` / `change_detected` / `waiting_for_stability` in the source). -/
inductive DetState
  | idle
  | changeDetected
  | waitingForStability
deriving DecidableEq

/-- The `ChangeDetector` thresholds set in its constructor. -/
structure DetCfg where
  changeThreshold : ℚ
  lowChangeThreshold : ℚ
  stabilityFrames : ℕ

/-- The constructor defaults: `changeThreshold 0.015`,
`lowChangeThreshold 0.01`, `stabilityFrames 3`. -/
def defaultCfg : DetCfg := ⟨15 / 1000, 1 / 100, 3⟩

/-- `ChangeDetector.processStateChange`, as a pure transition on
(state, stableFrameCount); the returned `Bool` is whether `onTrigger`
fired during the tick. -/
def processStateChange (cfg : DetCfg) (st : DetState × ℕ) (p : ℚ) :
    (DetState × ℕ) × Bool :=
  match st with
  | (DetState.idle, c) =>
      if cfg.changeThreshold < p then ((DetState.changeDetected, 0), false)
      else ((DetState.idle, c), false)
  | (DetState.changeDetected, c) =>
      if p < cfg.lowChangeThreshold then ((DetState.waitingForStability, 1), false)
      else ((DetState.changeDetected, c), false)
  | (DetState.waitingForStability, c) =>
      if p < cfg.lowChangeThreshold then
        if cfg.stabilityFrames ≤ c + 1 then ((DetState.idle, 0), true)
        else ((DetState.waitingForStability, c + 1), false)
      else if cfg.changeThreshold < p then ((DetState.changeDetected, 0), false)
      else ((DetState.waitingForStability, 0), false)

/-- Feed a scripted list of change fractions through the state machine,
recording each tick's fired flag.  `start()` initialises the machine at
(`idle`, 0). -/
def runScript (cfg : DetCfg) (init : DetState × ℕ) (ps : List ℚ) :
    (DetState × ℕ) × List Bool :=
  ps.foldl
    (fun acc p =>
      let r := processStateChange cfg acc.1 p
      (r.1, acc.2 ++ [r.2]))
    (init, [])

/-! ### The sampler / orchestrator interleaving

State shared by the sampling loop (`ChangeDetector.checkFrame`) and the
OCR orchestrator (`performOCR` in `src/ocr/js/index.js`): the
`isProcessing` busy flag, the capture-initialised flag, the timer flag,
the detector's machine state and its retained previous frame.  Events
are a sampler tick (with the frame the tick captures), the start of a
`performOCR` call, and its completion (`finally` block). -/

structure SysState where
  capturing : Bool
  timerRunning : Bool
  isProcessing : Bool
  det : DetState × ℕ
  lastFrame : Option (List Pixel)
deriving DecidableEq

/-- `ChangeDetector.checkFrame` on one tick: skip when capture is not
set up or the timer is paused; on the first frame only store it;
otherwise compare, run the state machine and store the frame.  The
source consults no busy flag here. -/
def tickStep (s : SysState) (f : List Pixel) : SysState :=
  if s.capturing = false then s
  else if s.timerRunning = false then s
  else
    match s.lastFrame with
    | none => { s with lastFrame := some f }
    | some lf =>
        let p := compareFrames lf f 20
        let r := processStateChange defaultCfg s.det p
        { s with det := r.1, lastFrame := some f }

/-- Entry of `performOCR`: return immediately when a pass is already in
flight or capture is not initialised; otherwise set the busy flag. -/
def ocrStartStep (s : SysState) : SysState :=
  if s.isProcessing then s
  else if s.capturing = false then s
  else { s with isProcessing := true }

/-- The `finally` block of `performOCR`: clear the busy flag. -/
def ocrFinishStep (s : SysState) : SysState := { s with isProcessing := false }

inductive SysEvent
  | tick (f : List Pixel)
  | ocrStart
  | ocrFinish

/-- Apply one event. -/
def applyEvent (s : SysState) : SysEvent → SysState
  | SysEvent.tick f => tickStep s f
  | SysEvent.ocrStart => ocrStartStep s
  | SysEvent.ocrFinish => ocrFinishStep s

/-- Run a list of events from a state. -/
def runEvents (s : SysState) (es : List SysEvent) : SysState :=
  es.foldl applyEvent s

/-- The state right after capture and change detection start
(`changeDetector.start` resets the machine to `idle`, count 0, and
clears `lastFrame`; the timer is running). -/
def initSys : SysState :=
  ⟨true, true, false, (DetState.idle, 0), none⟩

/-! ## MeikiOCR detection stage (`boxesOverlap`, `mergeOverlappingBoxes`,
`detectTextRegions`) -/

/-- A bounding box `[x1, y1, x2, y2]`. -/
structure Box where
  x1 : ℚ
  y1 : ℚ
  x2 : ℚ
  y2 : ℚ
deriving DecidableEq

/-- A `{box, score}` region proposal. -/
structure Region where
  box : Box
  score : ℚ
deriving DecidableEq

/-- `boxesOverlap`: the source checks that the boxes do NOT overlap
(`x2_1 <= x1_2 || x2_2 <= x1_1 || y2_1 <= y1_2 || y2_2 <= y1_1`) and
negates. -/
def boxesOverlap (b1 b2 : Box) : Bool :=
  !(decide (b1.x2 ≤ b2.x1) || decide (b2.x2 ≤ b1.x1) ||
    decide (b1.y2 ≤ b2.y1) || decide (b2.y2 ≤ b1.y1))

/-- Whether the candidate region `r` overlaps some member of the current
group (the source's inner `for (const groupIdx of group)` scan, with the
candidate as `boxesOverlap`'s first argument). -/
def overlapsAny (r : Region) (group : List Region) : Bool :=
  group.any fun q => boxesOverlap r.box q.box

/-- One `for (let j ...)` pass of the source's grouping loop over the
not-yet-used regions: each region overlapping the group as grown so far
is appended to the group, the others are kept, in order, as still
unused. -/
def growOnce (group : List Region) : List Region → List Region × List Region
  | [] => (group, [])
  | r :: rs =>
      if overlapsAny r group then growOnce (group ++ [r]) rs
      else
        let p := growOnce group rs
        (p.1, r :: p.2)

/-- The source's `while (changed)` loop: repeat `growOnce` until a pass
moves nothing (the unused list keeps its length).  Fuelled; a fuel of
one more than the unused count always reaches the fixpoint because
every non-final pass strictly shrinks the unused list. -/
def growLoop : ℕ → List Region → List Region → List Region × List Region
  | 0, group, rem => (group, rem)
  | fuel + 1, group, rem =>
      let p := growOnce group rem
      if p.2.length = rem.length then p
      else growLoop fuel p.1 p.2

/-- The grouping phase of `mergeOverlappingBoxes`, structurally fuelled:
take the first unused region as a seed and grow its group to the
fixpoint, then continue with the regions left unused.  Each round
consumes at least the seed, so a fuel equal to the region count (as
supplied by `buildGroups`) never runs out. -/
def buildGroupsAux : ℕ → List Region → List (List Region)
  | 0, _ => []
  | _ + 1, [] => []
  | fuel + 1, r :: rs =>
      (growLoop (rs.length + 1) [r] rs).1 ::
        buildGroupsAux fuel (growLoop (rs.length + 1) [r] rs).2

/-- The grouping phase of `mergeOverlappingBoxes`. -/
def buildGroups (l : List Region) : List (List Region) :=
  buildGroupsAux l.length l

/-- One step of the union fold of `mergeOverlappingBoxes`: widen the
accumulated union box by one member and keep the larger score. -/
def unionStep (acc q : Region) : Region :=
  ⟨⟨min acc.box.x1 q.box.x1, min acc.box.y1 q.box.y1,
    max acc.box.x2 q.box.x2, max acc.box.y2 q.box.y2⟩,
   max acc.score q.score⟩

/-- Collapse one group: union box (componentwise min/max, the source's
fold from `±Infinity` over the members) and maximum member score.  The
source never calls this on an empty group; the `[]` case is a junk
value. -/
def collapseGroup : List Region → Region
  | [] => ⟨⟨0, 0, 0, 0⟩, 0⟩
  | r :: rs => rs.foldl unionStep r

/-- `mergeOverlappingBoxes`. -/
def mergeOverlappingBoxes (regions : List Region) : List Region :=
  if regions.length = 0 then []
  else (buildGroups regions).map collapseGroup

/-- `DETECT_CONFIDENCE` from `THRESHOLDS`. -/
def DETECT_CONFIDENCE : ℚ := 3 / 10

/-- The box rescale and clamp of `detectTextRegions`: `Math.floor` of
each coordinate divided by the resize scale, clamped into
`[0, origWidth]` × `[0, origHeight]`. -/
def scaleClampBox (scale ow oh : ℚ) (b : Box) : Box :=
  ⟨max 0 (min ((⌊b.x1 / scale⌋ : ℤ) : ℚ) ow),
   max 0 (min ((⌊b.y1 / scale⌋ : ℤ) : ℚ) oh),
   max 0 (min ((⌊b.x2 / scale⌋ : ℤ) : ℚ) ow),
   max 0 (min ((⌊b.y2 / scale⌋ : ℤ) : ℚ) oh)⟩

/-- The filter-and-rescale loop of `detectTextRegions`: for each score
index, drop the entry below `DETECT_CONFIDENCE`, otherwise build the
rescaled clamped region.  JavaScript reads `boxes[4i .. 4i+3]` without a
bounds check (an out-of-range read yields `undefined` and propagates
`NaN`); the embedding reads the same positions with default `0` — no
claim depends on mismatched array lengths. -/
def detectedRegionsOf (boxes scores : List ℚ) (scale ow oh : ℚ) : List Region :=
  (List.range scores.length).filterMap fun i =>
    if scores.getD i 0 < DETECT_CONFIDENCE then none
    else some ⟨scaleClampBox scale ow oh
        ⟨boxes.getD (4 * i) 0, boxes.getD (4 * i + 1) 0,
         boxes.getD (4 * i + 2) 0, boxes.getD (4 * i + 3) 0⟩,
      scores.getD i 0⟩

def boxesKey : String := "boxes"

def scoresKey : String := "scores"

/-- The output-extraction step of `detectTextRegions`.  The inference
result is a keyed collection of output arrays, in key order.  If the
result object is absent, reading `.boxes` on it throws (modelled as
`Except.error`).  When the named `boxes`/`scores` outputs are present
they are used; otherwise the source falls back to the first two outputs
in key order, and reading `.data` of a missing output throws. -/
def extractDetOutputs :
    Option (List (String × List ℚ)) → Except Unit (List ℚ × List ℚ)
  | none => Except.error ()
  | some res =>
      match List.lookup boxesKey res, List.lookup scoresKey res with
      | some bs, some ss => Except.ok (bs, ss)
      | _, _ =>
          match res with
          | o1 :: o2 :: _ => Except.ok (o1.2, o2.2)
          | _ => Except.error ()

/-- The final reading-order sort of `detectTextRegions`
(`sort((a, b) => a.box[1] - b.box[1])`, a stable ascending sort on the
top edge). -/
def sortRegionsByY (l : List Region) : List Region :=
  l.mergeSort fun a b => decide (a.box.y1 ≤ b.box.y1)

/-- `detectTextRegions` after the inference call: extract the raw
outputs (propagating a thrown extraction error), filter and rescale,
merge overlapping boxes, sort top to bottom. -/
def detectTextRegionsPost (res : Option (List (String × List ℚ)))
    (scale ow oh : ℚ) : Except Unit (List Region) :=
  match extractDetOutputs res with
  | Except.error e => Except.error e
  | Except.ok bs =>
      Except.ok (sortRegionsByY (mergeOverlappingBoxes
        (detectedRegionsOf bs.1 bs.2 scale ow oh)))

/-! ## MeikiOCR recognition stage (`decodeMeikiOCROutput`) -/

/-- `RECOGNIZE_CONFIDENCE` from `THRESHOLDS`. -/
def RECOGNIZE_CONFIDENCE : ℚ := 1 / 10

/-- `X_OVERLAP` from `THRESHOLDS`. -/
def X_OVERLAP : ℚ := 3 / 10

/-- The recognition model input height (32). -/
def REC_INPUT_HEIGHT : ℚ := 32

/-- One surviving character candidate of `decodeMeikiOCROutput`:
label code point, floored bounding box in original-crop space,
confidence, and the (unfloored) horizontal interval `xInterval`. -/
structure Cand where
  label : ℕ
  bbox : Box
  conf : ℚ
  x1 : ℚ
  x2 : ℚ
deriving DecidableEq

/-- The candidate-building loop of `decodeMeikiOCROutput`: drop
low-confidence characters, clamp box x-coordinates to the effective
content width, remap x by `origWidth / effectiveWidth` and y by
`origHeight / 32`.  Out-of-range array reads are modelled with default
`0` (the source would propagate `NaN`); no claim depends on mismatched
array lengths. -/
def buildCands (labels : List ℕ) (boxes scores : List ℚ)
    (effW origW origH : ℚ) : List Cand :=
  (List.range labels.length).filterMap fun i =>
    let score := scores.getD i 0
    if score < RECOGNIZE_CONFIDENCE then none
    else
      let rx1 := min (boxes.getD (4 * i) 0) effW
      let ry1 := boxes.getD (4 * i + 1) 0
      let rx2 := min (boxes.getD (4 * i + 2) 0) effW
      let ry2 := boxes.getD (4 * i + 3) 0
      let cx1 := rx1 / effW * origW
      let cx2 := rx2 / effW * origW
      let cy1 := ry1 / REC_INPUT_HEIGHT * origH
      let cy2 := ry2 / REC_INPUT_HEIGHT * origH
      some ⟨labels.getD i 0,
        ⟨((⌊cx1⌋ : ℤ) : ℚ), ((⌊cy1⌋ : ℤ) : ℚ), ((⌊cx2⌋ : ℤ) : ℚ), ((⌊cy2⌋ : ℤ) : ℚ)⟩,
        score, cx1, cx2⟩

/-- The overlap the dedup loop computes for a candidate pair:
`Math.min(ax2, bx2) - Math.max(ax1, bx1)`. -/
def candOverlapAmount (a b : Cand) : ℚ := min a.x2 b.x2 - max a.x1 b.x1

/-- The width of the narrower of the two intervals:
`Math.min(ax2 - ax1, bx2 - bx1)`. -/
def candMinWidth (a b : Cand) : ℚ := min (a.x2 - a.x1) (b.x2 - b.x1)

/-- The dedup rejection test: `overlap > minWidth * X_OVERLAP`. -/
def overlapTooMuch (a b : Cand) : Bool :=
  decide (candMinWidth a b * X_OVERLAP < candOverlapAmount a b)

/-- The greedy dedup loop: scan candidates in order, reject one that
overlaps an already-accepted candidate too much, otherwise push it. -/
def dedupAccept : List Cand → List Cand → List Cand
  | acc, [] => acc
  | acc, c :: cs =>
      if acc.any fun o => overlapTooMuch c o then dedupAccept acc cs
      else dedupAccept (acc ++ [c]) cs

/-- `sort((a, b) => b.conf - a.conf)`: stable sort by confidence
descending. -/
def sortByConfDesc (l : List Cand) : List Cand :=
  l.mergeSort fun a b => decide (b.conf ≤ a.conf)

/-- `sort((a, b) => a.xInterval[0] - b.xInterval[0])`: stable sort by
interval start ascending. -/
def sortByXAsc (l : List Cand) : List Cand :=
  l.mergeSort fun a b => decide (a.x1 ≤ b.x1)

/-- `decodeMeikiOCROutput`: build candidates, sort by confidence
descending, dedup greedily, sort by x ascending; the text is the label
sequence of the accepted candidates. -/
def decodeMeikiOCROutput (labels : List ℕ) (boxes scores : List ℚ)
    (effW origW origH : ℚ) : List ℕ × List Cand :=
  let accepted := sortByXAsc (dedupAccept []
    (sortByConfDesc (buildCands labels boxes scores effW origW origH)))
  (accepted.map Cand.label, accepted)

/-! ## Specification-side predicates -/

/-- `ext` extends a group `g` in insertion order such that every added
region overlapped the group as it stood when the region was appended —
the shape of `growOnce`'s appends. -/
def linkedExt : List Region → List Region → Prop
  | _, [] => True
  | g, r :: ext => overlapsAny r g = true ∧ linkedExt (g ++ [r]) ext

/-- Connectivity under the reducer's own pairwise-overlap test: a chain
of overlapping regions leads from one region to the other. -/
def Reach : Region → Region → Prop :=
  Relation.ReflTransGen fun a b => boxesOverlap a.box b.box = true

/-- `b` encloses `q` (axis-aligned rectangle containment). -/
def boxContains (b q : Box) : Prop :=
  b.x1 ≤ q.x1 ∧ b.y1 ≤ q.y1 ∧ q.x2 ≤ b.x2 ∧ q.y2 ≤ b.y2

/-- Boxes of two different merge groups never overlap. -/
def groupsSeparated (G1 G2 : List Region) : Prop :=
  ∀ a ∈ G1, ∀ b ∈ G2, boxesOverlap a.box b.box = false

/-- The pairwise bound the recognition dedup enforces: the computed
interval overlap is at most `X_OVERLAP` times the narrower width. -/
def overlapWithinBound (a b : Cand) : Prop :=
  candOverlapAmount a b ≤ candMinWidth a b * X_OVERLAP

/-- The state-machine invariant of the change detector (default
thresholds): the stable counter is `0` outside `waitingForStability`
and always strictly below `stabilityFrames = 3`. -/
def detInvariant (st : DetState × ℕ) : Prop :=
  (st.1 = DetState.idle ∨ st.1 = DetState.changeDetected → st.2 = 0) ∧ st.2 < 3

/-- Whether the text contains an adjacent doubled occurrence of `c`
(the pattern the `replaceAll` collapse acts on). -/
def hasDouble (c : Char) : List Char → Bool
  | a :: b :: rest => (decide (a = c) && decide (b = c)) || hasDouble c (b :: rest)
  | _ => false

/-- Whether neither edge character of the text is ASCII. -/
def noAsciiEdge (l : List Char) : Bool :=
  l.head?.all (fun c => !isAsciiCh c) && l.getLast?.all (fun c => !isAsciiCh c)

/-! ## Concrete inputs used by the claim instances -/

/-- Box A = [0,0,10,10] of the overlap-transitivity test. -/
def exA : Region := ⟨⟨0, 0, 10, 10⟩, 1⟩

/-- Box B = [8,0,20,10]. -/
def exB : Region := ⟨⟨8, 0, 20, 10⟩, 3⟩

/-- Box C = [18,0,30,10]. -/
def exC : Region := ⟨⟨18, 0, 30, 10⟩, 2⟩

/-- A thin vertical bar: with `exBar` it forms an L-shaped group whose
union box swallows the disjoint `exInner`. -/
def exPole : Region := ⟨⟨0, 0, 1, 10⟩, 1⟩

/-- A thin horizontal bar overlapping `exPole` at the corner. -/
def exBar : Region := ⟨⟨0, 0, 10, 1⟩, 1⟩

/-- A small box disjoint from both bars but inside their union box. -/
def exInner : Region := ⟨⟨5, 5, 6, 6⟩, 1⟩

/-- An all-black single-pixel frame. -/
def frameBlack : List Pixel := [⟨0, 0, 0, 255⟩]

/-- An all-white single-pixel frame. -/
def frameWhite : List Pixel := [⟨255, 255, 255, 255⟩]

/-! ## Helper lemmas: the grouping loop of `mergeOverlappingBoxes` -/

theorem boxesOverlap_symm (b1 b2 : Box) : boxesOverlap b1 b2 = boxesOverlap b2 b1 := by
  simp only [boxesOverlap]
  congr 1
  ac_rfl

theorem growOnce_rem_length (group l : List Region) :
    (growOnce group l).2.length ≤ l.length := by
  induction l generalizing group with
  | nil => simp [growOnce]
  | cons r rs ih =>
      by_cases h : overlapsAny r group = true
      · simp only [growOnce, h, if_true, List.length_cons]
        exact Nat.le_succ_of_le (ih (group ++ [r]))
      · simp only [growOnce, h, Bool.false_eq_true, if_false, List.length_cons]
        exact Nat.succ_le_succ (ih group)

theorem growLoop_rem_length (fuel : ℕ) (group rem : List Region) :
    (growLoop fuel group rem).2.length ≤ rem.length := by
  induction fuel generalizing group rem with
  | zero => simp [growLoop]
  | succ n ih =>
      simp only [growLoop]
      by_cases h : (growOnce group rem).2.length = rem.length
      · simp [h]
      · simp only [h, if_false]
        exact le_trans (ih _ _) (growOnce_rem_length group rem)

theorem growOnce_perm (group l : List Region) :
    ((growOnce group l).1 ++ (growOnce group l).2).Perm (group ++ l) := by
  induction l generalizing group with
  | nil => simp [growOnce]
  | cons r rs ih =>
      by_cases h : overlapsAny r group = true
      · simp only [growOnce, h, if_true]
        simpa [List.append_assoc] using ih (group ++ [r])
      · simp only [growOnce, h, Bool.false_eq_true, if_false]
        exact List.perm_middle.trans (((ih group).cons r).trans List.perm_middle.symm)

theorem growOnce_ext (group l : List Region) :
    ∃ ext, (growOnce group l).1 = group ++ ext ∧ linkedExt group ext := by
  induction l generalizing group with
  | nil => exact ⟨[], by simp [growOnce], trivial⟩
  | cons r rs ih =>
      by_cases h : overlapsAny r group = true
      · obtain ⟨ext, h1, h2⟩ := ih (group ++ [r])
        refine ⟨r :: ext, ?_, h, h2⟩
        simp [growOnce, h, h1]
      · obtain ⟨ext, h1, h2⟩ := ih group
        exact ⟨ext, by simp [growOnce, h, h1], h2⟩

theorem growOnce_fixpoint (group l : List Region)
    (h : (growOnce group l).2.length = l.length) :
    (growOnce group l).1 = group ∧ (growOnce group l).2 = l ∧
      ∀ r ∈ l, overlapsAny r group = false := by
  induction l generalizing group with
  | nil => simp [growOnce]
  | cons r rs ih =>
      by_cases ho : overlapsAny r group = true
      · exfalso
        have hle := growOnce_rem_length (group ++ [r]) rs
        simp only [growOnce, ho, if_true, List.length_cons] at h
        omega
      · simp only [growOnce, ho, Bool.false_eq_true, if_false, List.length_cons] at h ⊢
        obtain ⟨h1, h2, h3⟩ := ih group (by simpa using h)
        refine ⟨h1, by simp [h2], ?_⟩
        intro x hx
        rcases List.mem_cons.mp hx with hx | hx
        · subst hx
          exact Bool.eq_false_iff.mpr ho
        · exact h3 x hx

theorem linkedExt_append (g e1 e2 : List Region) (h1 : linkedExt g e1)
    (h2 : linkedExt (g ++ e1) e2) : linkedExt g (e1 ++ e2) := by
  induction e1 generalizing g with
  | nil => simpa using h2
  | cons r e ih =>
      obtain ⟨hr, he⟩ := h1
      exact ⟨hr, ih (g ++ [r]) he (by simpa [List.append_assoc] using h2)⟩

theorem growLoop_perm (fuel : ℕ) (group rem : List Region) :
    ((growLoop fuel group rem).1 ++ (growLoop fuel group rem).2).Perm (group ++ rem) := by
  induction fuel generalizing group rem with
  | zero => simp [growLoop]
  | succ n ih =>
      simp only [growLoop]
      by_cases h : (growOnce group rem).2.length = rem.length
      · simpa [h] using growOnce_perm group rem
      · simp only [h, if_false]
        exact (ih _ _).trans (growOnce_perm group rem)

theorem growLoop_ext (fuel : ℕ) (group rem : List Region) :
    ∃ ext, (growLoop fuel group rem).1 = group ++ ext ∧ linkedExt group ext := by
  induction fuel generalizing group rem with
  | zero => exact ⟨[], by simp [growLoop], trivial⟩
  | succ n ih =>
      by_cases h : (growOnce group rem).2.length = rem.length
      · obtain ⟨ext, h1, h2⟩ := growOnce_ext group rem
        exact ⟨ext, by simp [growLoop, h, h1], h2⟩
      · obtain ⟨e1, he1, hl1⟩ := growOnce_ext group rem
        obtain ⟨e2, he2, hl2⟩ := ih (growOnce group rem).1 (growOnce group rem).2
        refine ⟨e1 ++ e2, ?_, linkedExt_append _ _ _ hl1 (he1 ▸ hl2)⟩
        simp only [growLoop, h, if_false]
        rw [he2, he1, List.append_assoc]

theorem growLoop_closed (fuel : ℕ) (group rem : List Region)
    (h : rem.length < fuel) :
    ∀ r ∈ (growLoop fuel group rem).2,
      overlapsAny r (growLoop fuel group rem).1 = false := by
  induction fuel generalizing group rem with
  | zero => omega
  | succ n ih =>
      simp only [growLoop]
      by_cases hfix : (growOnce group rem).2.length = rem.length
      · simp only [hfix, if_true]
        obtain ⟨h1, h2, h3⟩ := growOnce_fixpoint group rem hfix
        rw [h1, h2]
        exact h3
      · simp only [hfix, if_false]
        apply ih
        have hle := growOnce_rem_length group rem
        omega

/-! ## Helper lemmas: the groups built by `buildGroups` -/

theorem buildGroupsAux_flatten_perm (fuel : ℕ) :
    ∀ l : List Region, l.length ≤ fuel →
      ((buildGroupsAux fuel l).flatten).Perm l := by
  induction fuel with
  | zero =>
      intro l h
      have hl : l = [] := List.length_eq_zero.mp (Nat.le_zero.mp h)
      subst hl
      simp [buildGroupsAux]
  | succ n ih =>
      intro l h
      match l with
      | [] => simp [buildGroupsAux]
      | r :: rs =>
          simp only [buildGroupsAux, List.flatten_cons]
          have hrem := growLoop_rem_length (rs.length + 1) [r] rs
          have hperm := growLoop_perm (rs.length + 1) [r] rs
          have hih := ih (growLoop (rs.length + 1) [r] rs).2
            (by simp only [List.length_cons] at h; omega)
          exact ((hih.append_left _).trans hperm)

theorem buildGroups_flatten_perm (l : List Region) :
    ((buildGroups l).flatten).Perm l :=
  buildGroupsAux_flatten_perm l.length l le_rfl

theorem buildGroupsAux_mem_mem (fuel : ℕ) (l : List Region)
    (hf : l.length ≤ fuel) {G : List Region} {a : Region}
    (hG : G ∈ buildGroupsAux fuel l) (ha : a ∈ G) : a ∈ l := by
  have : a ∈ (buildGroupsAux fuel l).flatten := List.mem_flatten.mpr ⟨G, hG, ha⟩
  exact (buildGroupsAux_flatten_perm fuel l hf).mem_iff.mp this

theorem buildGroupsAux_pairwise (fuel : ℕ) :
    ∀ l : List Region, l.length ≤ fuel →
      List.Pairwise groupsSeparated (buildGroupsAux fuel l) := by
  induction fuel with
  | zero =>
      intro l h
      have hl : l = [] := List.length_eq_zero.mp (Nat.le_zero.mp h)
      subst hl
      simp [buildGroupsAux]
  | succ n ih =>
      intro l h
      match l with
      | [] => simp [buildGroupsAux]
      | r :: rs =>
          simp only [buildGroupsAux]
          rw [List.pairwise_cons]
          have hlen : rs.length ≤ n := by
            simp only [List.length_cons] at h
            omega
          have hrem := growLoop_rem_length (rs.length + 1) [r] rs
          constructor
          · intro G2 hG2 a ha b hb
            have hbrem : b ∈ (growLoop (rs.length + 1) [r] rs).2 :=
              buildGroupsAux_mem_mem n _ (le_trans hrem hlen) hG2 hb
            have hclosed := growLoop_closed (rs.length + 1) [r] rs
              (Nat.lt_succ_self _) b hbrem
            have : ∀ q ∈ (growLoop (rs.length + 1) [r] rs).1,
                ¬boxesOverlap b.box q.box = true := by
              simpa [overlapsAny, List.any_eq_false] using hclosed
            have hba := this a ha
            rw [boxesOverlap_symm]
            exact Bool.eq_false_iff.mpr hba
          · exact ih _ (le_trans hrem hlen)

theorem buildGroups_pairwise (l : List Region) :
    List.Pairwise groupsSeparated (buildGroups l) :=
  buildGroupsAux_pairwise l.length l le_rfl

theorem buildGroupsAux_seeded (fuel : ℕ) :
    ∀ l G, G ∈ buildGroupsAux fuel l →
      ∃ r ext, G = r :: ext ∧ linkedExt [r] ext := by
  induction fuel with
  | zero => intro l G hG; simp [buildGroupsAux] at hG
  | succ n ih =>
      intro l G hG
      match l with
      | [] => simp [buildGroupsAux] at hG
      | r :: rs =>
          simp only [buildGroupsAux, List.mem_cons] at hG
          rcases hG with hG | hG
          · obtain ⟨ext, h1, h2⟩ := growLoop_ext (rs.length + 1) [r] rs
            exact ⟨r, ext, by rw [hG, h1]; rfl, h2⟩
          · exact ih _ G hG

/-! ## Helper lemmas: connectivity inside a group -/

theorem reach_symm {a b : Region} (h : Reach a b) : Reach b a := by
  refine Relation.ReflTransGen.symmetric ?_ h
  intro x y hxy
  rwa [boxesOverlap_symm]

theorem reach_of_linkedExt (ext : List Region) :
    ∀ g s, (∀ x ∈ g, Reach x s) → linkedExt g ext →
      ∀ x ∈ g ++ ext, Reach x s := by
  induction ext with
  | nil => intro g s hg _ x hx; exact hg x (by simpa using hx)
  | cons r e ih =>
      intro g s hg hlink x hx
      obtain ⟨hr, he⟩ := hlink
      obtain ⟨q, hq, hrq⟩ := List.any_eq_true.mp hr
      have hgr : ∀ y ∈ g ++ [r], Reach y s := by
        intro y hy
        rcases List.mem_append.mp hy with hy | hy
        · exact hg y hy
        · have : y = r := by simpa using hy
          subst this
          exact Relation.ReflTransGen.head hrq (hg q hq)
      have := ih (g ++ [r]) s hgr he
      apply this
      simpa [List.append_assoc] using hx

theorem group_members_reach (G : List Region) (r : Region) (ext : List Region)
    (hG : G = r :: ext) (hlink : linkedExt [r] ext) :
    ∀ a ∈ G, ∀ b ∈ G, Reach a b := by
  have hall : ∀ x ∈ G, Reach x r := by
    intro x hx
    refine reach_of_linkedExt ext [r] r ?_ hlink x ?_
    · intro y hy
      have : y = r := by simpa using hy
      subst this
      exact Relation.ReflTransGen.refl
    · rw [hG] at hx
      simpa using hx
  intro a ha b hb
  exact (hall a ha).trans (reach_symm (hall b hb))

/-! ## Helper lemmas: the union fold of `mergeOverlappingBoxes` -/

theorem boxContains_refl (b : Box) : boxContains b b :=
  ⟨le_refl _, le_refl _, le_refl _, le_refl _⟩

theorem boxContains_trans {a b c : Box} (h1 : boxContains a b)
    (h2 : boxContains b c) : boxContains a c :=
  ⟨le_trans h1.1 h2.1, le_trans h1.2.1 h2.2.1,
   le_trans h2.2.2.1 h1.2.2.1, le_trans h2.2.2.2 h1.2.2.2⟩

theorem unionStep_contains_left (acc q : Region) :
    boxContains (unionStep acc q).box acc.box :=
  ⟨min_le_left _ _, min_le_left _ _, le_max_left _ _, le_max_left _ _⟩

theorem unionStep_contains_right (acc q : Region) :
    boxContains (unionStep acc q).box q.box :=
  ⟨min_le_right _ _, min_le_right _ _, le_max_right _ _, le_max_right _ _⟩

theorem foldl_union_contains (rs : List Region) :
    ∀ acc : Region,
      boxContains (rs.foldl unionStep acc).box acc.box ∧
        ∀ q ∈ rs, boxContains (rs.foldl unionStep acc).box q.box := by
  induction rs with
  | nil => intro acc; exact ⟨boxContains_refl _, by simp⟩
  | cons q qs ih =>
      intro acc
      obtain ⟨ha, hmem⟩ := ih (unionStep acc q)
      rw [List.foldl_cons]
      refine ⟨boxContains_trans ha (unionStep_contains_left acc q), ?_⟩
      intro p hp
      rcases List.mem_cons.mp hp with rfl | hp
      · exact boxContains_trans ha (unionStep_contains_right acc p)
      · exact hmem p hp

theorem foldl_union_minimal (rs : List Region) :
    ∀ (acc : Region) (b : Box), boxContains b acc.box →
      (∀ q ∈ rs, boxContains b q.box) →
      boxContains b (rs.foldl unionStep acc).box := by
  induction rs with
  | nil => intro acc b h _; exact h
  | cons q qs ih =>
      intro acc b hacc hmem
      rw [List.foldl_cons]
      refine ih (unionStep acc q) b ?_ fun p hp => hmem p (List.mem_cons_of_mem _ hp)
      have hq := hmem q (List.mem_cons_self _ _)
      exact ⟨le_min hacc.1 hq.1, le_min hacc.2.1 hq.2.1,
        max_le hacc.2.2.1 hq.2.2.1, max_le hacc.2.2.2 hq.2.2.2⟩

theorem foldl_union_score_ub (rs : List Region) :
    ∀ acc : Region,
      acc.score ≤ (rs.foldl unionStep acc).score ∧
        ∀ q ∈ rs, q.score ≤ (rs.foldl unionStep acc).score := by
  induction rs with
  | nil => intro acc; exact ⟨le_refl _, by simp⟩
  | cons q qs ih =>
      intro acc
      obtain ⟨ha, hmem⟩ := ih (unionStep acc q)
      rw [List.foldl_cons]
      have hstep : max acc.score q.score = (unionStep acc q).score := rfl
      refine ⟨le_trans (le_max_left _ q.score) ha, ?_⟩
      intro p hp
      rcases List.mem_cons.mp hp with hp | hp
      · subst hp
        exact le_trans (le_max_right acc.score _) ha
      · exact hmem p hp

theorem foldl_union_score_mem (rs : List Region) :
    ∀ acc : Region,
      (rs.foldl unionStep acc).score = acc.score ∨
        (rs.foldl unionStep acc).score ∈ rs.map Region.score := by
  induction rs with
  | nil => intro acc; exact Or.inl rfl
  | cons q qs ih =>
      intro acc
      rw [List.foldl_cons]
      rcases ih (unionStep acc q) with h | h
      · have : (unionStep acc q).score = acc.score ∨
            (unionStep acc q).score = q.score := max_choice _ _
        rcases this with h2 | h2
        · exact Or.inl (h.trans h2)
        · exact Or.inr (by rw [List.map_cons, h, h2]; exact List.mem_cons_self _ _)
      · exact Or.inr (List.mem_cons_of_mem _ h)

theorem collapseGroup_contains (G : List Region) :
    ∀ q ∈ G, boxContains (collapseGroup G).box q.box := by
  match G with
  | [] => intro q hq; cases hq
  | r :: rs =>
      intro q hq
      obtain ⟨ha, hmem⟩ := foldl_union_contains rs r
      rcases List.mem_cons.mp hq with hq | hq
      · subst hq; exact ha
      · exact hmem q hq

theorem collapseGroup_minimal (G : List Region) (hne : G ≠ []) (b : Box)
    (h : ∀ q ∈ G, boxContains b q.box) :
    boxContains b (collapseGroup G).box := by
  match G with
  | [] => exact absurd rfl hne
  | r :: rs =>
      exact foldl_union_minimal rs r b (h r (List.mem_cons_self _ _))
        fun q hq => h q (List.mem_cons_of_mem _ hq)

theorem collapseGroup_score_ub (G : List Region) :
    ∀ q ∈ G, q.score ≤ (collapseGroup G).score := by
  match G with
  | [] => intro q hq; cases hq
  | r :: rs =>
      intro q hq
      obtain ⟨ha, hmem⟩ := foldl_union_score_ub rs r
      rcases List.mem_cons.mp hq with hq | hq
      · subst hq; exact ha
      · exact hmem q hq

theorem collapseGroup_score_mem (G : List Region) (hne : G ≠ []) :
    (collapseGroup G).score ∈ G.map Region.score := by
  match G with
  | [] => exact absurd rfl hne
  | r :: rs =>
      rcases foldl_union_score_mem rs r with h | h
      · rw [List.map_cons]
        exact h ▸ List.mem_cons_self _ _
      · exact List.mem_cons_of_mem _ h

/-! ## Helper lemmas: the Line Filter's normalization stages -/

theorem contains_true_iff (l : List Char) (a : Char) :
    l.contains a = true ↔ a ∈ l :=
  List.elem_iff

theorem contains_eq_of_iff {l1 l2 : List Char} {a b : Char}
    (h : a ∈ l1 ↔ b ∈ l2) : l1.contains a = l2.contains b := by
  by_cases h1 : a ∈ l1
  · rw [(contains_true_iff l1 a).mpr h1, ((contains_true_iff l2 b).mpr (h.mp h1)).symm]
  · have h2 : b ∉ l2 := fun hb => h1 (h.mpr hb)
    rw [Bool.eq_false_iff.mpr fun hc => h1 ((contains_true_iff l1 a).mp hc),
      (Bool.eq_false_iff.mpr fun hc => h2 ((contains_true_iff l2 b).mp hc) : l2.contains b = false)]

theorem dropWhile_no_op {p : Char → Bool} {l : List Char}
    (h : l.head?.all (fun c => !p c) = true) : l.dropWhile p = l := by
  match l with
  | [] => rfl
  | c :: cs =>
      have hc : p c = false := by simpa using h
      simp [List.dropWhile_cons, hc]

theorem head_dropWhile_all (p : Char → Bool) (l : List Char) :
    (l.dropWhile p).head?.all (fun c => !p c) = true := by
  have h := List.head?_dropWhile_not p l
  cases he : (l.dropWhile p).head? with
  | none => rfl
  | some x =>
      rw [he] at h
      simpa using h

theorem mem_dropWhile_of_neg (p : Char → Bool) :
    ∀ (l : List Char) (x : Char), x ∈ l → p x = false → x ∈ l.dropWhile p := by
  intro l
  induction l with
  | nil => intro x hx; cases hx
  | cons c cs ih =>
      intro x hx hpx
      by_cases hc : p c = true
      · rw [List.dropWhile_cons, if_pos hc]
        rcases List.mem_cons.mp hx with rfl | hx
        · rw [hpx] at hc; cases hc
        · exact ih x hx hpx
      · rw [List.dropWhile_cons, if_neg hc]
        exact hx

theorem getLast?_dropWhile_of_ne_nil (p : Char → Bool) (l : List Char)
    (h : l.dropWhile p ≠ []) : (l.dropWhile p).getLast? = l.getLast? := by
  obtain ⟨pre, hpre⟩ := List.dropWhile_suffix (l := l) p
  obtain ⟨y, hy⟩ := Option.isSome_iff_exists.mp (List.getLast?_isSome.mpr h)
  conv_rhs => rw [← hpre]
  rw [List.getLast?_append, hy]
  rfl

theorem mem_of_mem_trimJs {l : List Char} {x : Char} (h : x ∈ trimJs l) : x ∈ l := by
  unfold trimJs at h
  rw [List.mem_reverse] at h
  have h2 : x ∈ (l.dropWhile isJsWs).reverse := (List.dropWhile_sublist _).mem h
  rw [List.mem_reverse] at h2
  exact (List.dropWhile_sublist _).mem h2

theorem mem_trimJs_of_mem {l : List Char} {x : Char} (hx : x ∈ l)
    (hws : isJsWs x = false) : x ∈ trimJs l := by
  unfold trimJs
  rw [List.mem_reverse]
  exact mem_dropWhile_of_neg _ _ x
    (List.mem_reverse.mpr (mem_dropWhile_of_neg _ _ x hx hws)) hws

theorem mem_trimJs_iff {l : List Char} {x : Char} (hws : isJsWs x = false) :
    x ∈ trimJs l ↔ x ∈ l :=
  ⟨mem_of_mem_trimJs, fun h => mem_trimJs_of_mem h hws⟩

theorem trimJs_edges (l : List Char) :
    (trimJs l).head?.all (fun c => !isJsWs c) = true ∧
      (trimJs l).getLast?.all (fun c => !isJsWs c) = true := by
  unfold trimJs
  constructor
  · rw [List.head?_reverse]
    by_cases hnil : (l.dropWhile isJsWs).reverse.dropWhile isJsWs = []
    · rw [hnil]
      rfl
    · rw [getLast?_dropWhile_of_ne_nil _ _ hnil, List.getLast?_reverse]
      exact head_dropWhile_all _ _
  · rw [List.getLast?_reverse]
    exact head_dropWhile_all _ _

theorem trimJs_no_op {l : List Char}
    (h1 : l.head?.all (fun c => !isJsWs c) = true)
    (h2 : l.getLast?.all (fun c => !isJsWs c) = true) : trimJs l = l := by
  unfold trimJs
  rw [dropWhile_no_op h1, dropWhile_no_op (by rwa [List.head?_reverse]),
    List.reverse_reverse]

theorem trimJs_idem (l : List Char) : trimJs (trimJs l) = trimJs l :=
  trimJs_no_op (trimJs_edges l).1 (trimJs_edges l).2

theorem stripAscii_no_op {l : List Char} (h : noAsciiEdge l = true) :
    stripAscii l = l := by
  obtain ⟨h1, h2⟩ := Bool.and_eq_true_iff.mp h
  unfold stripAscii stripLeadingAscii stripTrailingAscii
  rw [dropWhile_no_op h1, dropWhile_no_op (by rwa [List.head?_reverse]),
    List.reverse_reverse]

theorem collapseDouble_no_op (c : Char) :
    ∀ l : List Char, hasDouble c l = false → collapseDouble c l = l
  | [], _ => rfl
  | [a], _ => rfl
  | a :: b :: rest, h => by
      have hsplit := Bool.or_eq_false_iff.mp h
      have h1 : ¬(a = c ∧ b = c) := by
        intro hac
        rw [hac.1, hac.2] at hsplit
        simp at hsplit
      simp only [collapseDouble, if_neg h1]
      rw [collapseDouble_no_op c (b :: rest) hsplit.2]

theorem mem_collapseDouble (c x : Char) :
    ∀ l : List Char, x ∈ collapseDouble c l → x ∈ l
  | [], h => h
  | [a], h => h
  | a :: b :: rest, h => by
      by_cases hab : a = c ∧ b = c
      · simp only [collapseDouble, if_pos hab] at h
        rcases List.mem_cons.mp h with rfl | h
        · exact hab.1 ▸ List.mem_cons_self _ _
        · exact List.mem_cons_of_mem _
            (List.mem_cons_of_mem _ (mem_collapseDouble c x rest h))
      · simp only [collapseDouble, if_neg hab] at h
        rcases List.mem_cons.mp h with rfl | h
        · exact List.mem_cons_self _ _
        · exact List.mem_cons_of_mem _ (mem_collapseDouble c x (b :: rest) h)

theorem map_no_op {f : Char → Char} {l : List Char}
    (h : ∀ c ∈ l, f c = c) : l.map f = l := by
  induction l with
  | nil => rfl
  | cons c cs ih =>
      rw [List.map_cons, h c (List.mem_cons_self _ _),
        ih fun z hz => h z (List.mem_cons_of_mem _ hz)]

theorem contains_iff_of_eq {l1 l2 : List Char} {a b : Char}
    (h : l1.contains a = l2.contains b) : a ∈ l1 ↔ b ∈ l2 := by
  rw [← contains_true_iff l1 a, ← contains_true_iff l2 b, h]

theorem balanceQuotePair_no_op {op cl : Char} {l : List Char}
    (h : l.contains op = l.contains cl) : balanceQuotePair op cl l = l := by
  have hiff : op ∈ l ↔ cl ∈ l := contains_iff_of_eq h
  unfold balanceQuotePair
  by_cases h1 : op ∈ l
  · have h2 := hiff.mp h1
    rw [if_neg, if_neg]
    · intro hc
      exact hc.1 ((contains_true_iff l op).mpr h1)
    · intro hc
      exact hc.2 ((contains_true_iff l cl).mpr h2)
  · have h2 : cl ∉ l := fun hc => h1 (hiff.mpr hc)
    rw [if_neg, if_neg]
    · intro hc
      exact h2 ((contains_true_iff l cl).mp hc.2)
    · intro hc
      exact h1 ((contains_true_iff l op).mp hc.1)

theorem balanceQuotePair_mem_of {op cl : Char} {l : List Char} {x : Char}
    (hx : x ∈ balanceQuotePair op cl l) : x ∈ l ∨ x = op ∨ x = cl := by
  unfold balanceQuotePair at hx
  split_ifs at hx
  · rcases List.mem_append.mp hx with hx | hx
    · exact Or.inl hx
    · exact Or.inr (Or.inr (by simpa using hx))
  · rcases List.mem_cons.mp hx with hx | hx
    · exact Or.inr (Or.inl hx)
    · exact Or.inl hx
  · exact Or.inl hx

theorem balanceQuotePair_mem_mono {op cl : Char} {l : List Char} {x : Char}
    (hx : x ∈ l) : x ∈ balanceQuotePair op cl l := by
  unfold balanceQuotePair
  split_ifs
  · exact List.mem_append_left _ hx
  · exact List.mem_cons_of_mem _ hx
  · exact hx

theorem balanceQuotePair_balanced (op cl : Char) (l : List Char) :
    (balanceQuotePair op cl l).contains op = (balanceQuotePair op cl l).contains cl := by
  apply contains_eq_of_iff
  unfold balanceQuotePair
  split_ifs with hA hB
  · simp only [List.mem_append, List.mem_singleton]
    exact ⟨fun _ => Or.inr trivial, fun _ => Or.inl ((contains_true_iff l op).mp hA.1)⟩
  · simp only [List.mem_cons]
    exact ⟨fun _ => Or.inr ((contains_true_iff l cl).mp hB.2), fun _ => Or.inl trivial⟩
  · by_cases h1 : op ∈ l
    · have h2 : cl ∈ l := by
        by_contra h2
        exact hA ⟨(contains_true_iff l op).mpr h1,
          fun hc => h2 ((contains_true_iff l cl).mp hc)⟩
      exact ⟨fun _ => h2, fun _ => h1⟩
    · have h2 : cl ∉ l := by
        intro h2
        exact hB ⟨fun hc => h1 ((contains_true_iff l op).mp hc),
          (contains_true_iff l cl).mpr h2⟩
      exact ⟨fun ho => absurd ho h1, fun hc => absurd hc h2⟩

theorem balanceQuotePair_contains_other {op cl x : Char} (l : List Char)
    (hxo : x ≠ op) (hxc : x ≠ cl) :
    (balanceQuotePair op cl l).contains x = l.contains x := by
  apply contains_eq_of_iff
  unfold balanceQuotePair
  split_ifs
  · rw [List.mem_append]
    simp [hxc]
  · rw [List.mem_cons]
    simp [hxo]
  · rfl

theorem parenFix_ne_paren (c : Char) : parenFix c ≠ '(' ∧ parenFix c ≠ ')' := by
  unfold parenFix
  split_ifs with h1 h2
  · exact ⟨by decide, by decide⟩
  · exact ⟨by decide, by decide⟩
  · exact ⟨h1, h2⟩

theorem dashFix_ne_dash (c : Char) : dashFix c ≠ '―' := by
  unfold dashFix
  split_ifs with h1
  · decide
  · exact h1

theorem dashFix_eq_iff {x : Char} (hx : x ≠ 'ー') (hx2 : x ≠ '―') (c : Char) :
    dashFix c = x ↔ c = x := by
  unfold dashFix
  split_ifs with h1
  · subst h1
    constructor
    · intro h
      exact absurd h.symm hx
    · intro h
      exact absurd h hx2.symm
  · exact Iff.rfl

theorem mem_map_dashFix {x : Char} (hx : x ≠ 'ー') (hx2 : x ≠ '―') (l : List Char) :
    x ∈ l.map dashFix ↔ x ∈ l := by
  rw [List.mem_map]
  constructor
  · rintro ⟨c, hc, hcx⟩
    rwa [(dashFix_eq_iff hx hx2 c).mp hcx] at hc
  · intro h
    exact ⟨x, h, (dashFix_eq_iff hx hx2 x).mpr rfl⟩

theorem normCore_facts (s : List Char) :
    '(' ∉ normCore s ∧ ')' ∉ normCore s ∧ '―' ∉ normCore s ∧
      (normCore s).contains '「' = (normCore s).contains '」' ∧
      (normCore s).contains '（' = (normCore s).contains '）' ∧
      (normCore s).head?.all (fun c => !isJsWs c) = true ∧
      (normCore s).getLast?.all (fun c => !isJsWs c) = true := by
  unfold normCore
  set y := collapseDouble '「' (collapseDouble '」' (stripAscii s)) with hy
  set x1 := y.map parenFix with hx1
  set w := balanceQuotePair '「' '」' x1 with hw
  set v := balanceQuotePair '（' '）' w with hv
  set u := v.map dashFix with hu
  have hlp : '(' ∉ u := by
    intro hmem
    have : '(' ∈ v := (mem_map_dashFix (by decide) (by decide) v).mp hmem
    rcases balanceQuotePair_mem_of this with h | h | h
    · rcases balanceQuotePair_mem_of h with h2 | h2 | h2
      · obtain ⟨c, _, hc⟩ := List.mem_map.mp h2
        exact (parenFix_ne_paren c).1 hc
      · cases h2
      · cases h2
    · cases h
    · cases h
  have hrp : ')' ∉ u := by
    intro hmem
    have : ')' ∈ v := (mem_map_dashFix (by decide) (by decide) v).mp hmem
    rcases balanceQuotePair_mem_of this with h | h | h
    · rcases balanceQuotePair_mem_of h with h2 | h2 | h2
      · obtain ⟨c, _, hc⟩ := List.mem_map.mp h2
        exact (parenFix_ne_paren c).2 hc
      · cases h2
      · cases h2
    · cases h
    · cases h
  have hdash : '―' ∉ u := by
    intro hmem
    obtain ⟨c, _, hc⟩ := List.mem_map.mp hmem
    exact dashFix_ne_dash c hc
  refine ⟨fun h => hlp (mem_of_mem_trimJs h), fun h => hrp (mem_of_mem_trimJs h),
    fun h => hdash (mem_of_mem_trimJs h), ?_, ?_, (trimJs_edges u).1, (trimJs_edges u).2⟩
  · have hwb : w.contains '「' = w.contains '」' := balanceQuotePair_balanced _ _ _
    have hvo : v.contains '「' = w.contains '「' :=
      balanceQuotePair_contains_other w (by decide) (by decide)
    have hvc : v.contains '」' = w.contains '」' :=
      balanceQuotePair_contains_other w (by decide) (by decide)
    have huo : u.contains '「' = v.contains '「' :=
      contains_eq_of_iff (mem_map_dashFix (by decide) (by decide) v)
    have huc : u.contains '」' = v.contains '」' :=
      contains_eq_of_iff (mem_map_dashFix (by decide) (by decide) v)
    have hto : (trimJs u).contains '「' = u.contains '「' :=
      contains_eq_of_iff (mem_trimJs_iff (by decide))
    have htc : (trimJs u).contains '」' = u.contains '」' :=
      contains_eq_of_iff (mem_trimJs_iff (by decide))
    rw [hto, htc, huo, huc, hvo, hvc, hwb]
  · have hvb : v.contains '（' = v.contains '）' := balanceQuotePair_balanced _ _ _
    have huo : u.contains '（' = v.contains '（' :=
      contains_eq_of_iff (mem_map_dashFix (by decide) (by decide) v)
    have huc : u.contains '）' = v.contains '）' :=
      contains_eq_of_iff (mem_map_dashFix (by decide) (by decide) v)
    have hto : (trimJs u).contains '（' = u.contains '（' :=
      contains_eq_of_iff (mem_trimJs_iff (by decide))
    have htc : (trimJs u).contains '）' = u.contains '）' :=
      contains_eq_of_iff (mem_trimJs_iff (by decide))
    rw [hto, htc, huo, huc, hvb]

theorem normCore_no_op {t : List Char}
    (hlp : '(' ∉ t) (hrp : ')' ∉ t) (hdash : '―' ∉ t)
    (hq : t.contains '「' = t.contains '」')
    (hp : t.contains '（' = t.contains '）')
    (hh : t.head?.all (fun c => !isJsWs c) = true)
    (hl : t.getLast?.all (fun c => !isJsWs c) = true)
    (hd1 : hasDouble '」' t = false) (hd2 : hasDouble '「' t = false)
    (he : noAsciiEdge t = true) : normCore t = t := by
  have e1 : stripAscii t = t := stripAscii_no_op he
  have e2 : collapseDouble '」' t = t := collapseDouble_no_op _ t hd1
  have e3 : collapseDouble '「' t = t := collapseDouble_no_op _ t hd2
  have e4 : t.map parenFix = t := by
    apply map_no_op
    intro c hc
    unfold parenFix
    rw [if_neg, if_neg]
    · intro h
      exact hrp (h ▸ hc)
    · intro h
      exact hlp (h ▸ hc)
  have e5 : balanceQuotePair '「' '」' t = t := balanceQuotePair_no_op hq
  have e6 : balanceQuotePair '（' '）' t = t := balanceQuotePair_no_op hp
  have e7 : t.map dashFix = t := by
    apply map_no_op
    intro c hc
    unfold dashFix
    rw [if_neg]
    intro h
    exact hdash (h ▸ hc)
  have e8 : trimJs t = t := trimJs_no_op hh hl
  unfold normCore
  rw [e1, e2, e3, e4, e5, e6, e7, e8]

/-! ## Helper lemmas: the frame differ -/

theorem absDiff_comm (x y : ℕ) : absDiff x y = absDiff y x := by
  unfold absDiff
  rw [← Int.natAbs_neg, neg_sub]

theorem pixelDiff_comm (p q : Pixel) : pixelDiff p q = pixelDiff q p := by
  unfold pixelDiff
  rw [absDiff_comm p.r, absDiff_comm p.g, absDiff_comm p.b]

theorem absDiff_self (x : ℕ) : absDiff x x = 0 := by
  unfold absDiff
  rw [sub_self]
  rfl

theorem zip_self_eq (A : List Pixel) : ∀ pq ∈ A.zip A, pq.1 = pq.2 := by
  induction A with
  | nil => intro pq h; cases h
  | cons p ps ih =>
      intro pq h
      rcases List.mem_cons.mp h with rfl | h
      · rfl
      · exact ih pq h

/-! ## Helper lemmas: the change-detector invariant -/

theorem processStateChange_step (st : DetState × ℕ) (p : ℚ)
    (h : detInvariant st) :
    detInvariant (processStateChange defaultCfg st p).1 ∧
      ((processStateChange defaultCfg st p).2 = true →
        (processStateChange defaultCfg st p).1 = (DetState.idle, 0) ∧ st.2 + 1 = 3) := by
  obtain ⟨hzero, hlt⟩ := h
  have hIdle : detInvariant (DetState.idle, 0) := ⟨fun _ => rfl, by omega⟩
  have hCd : detInvariant (DetState.changeDetected, 0) := ⟨fun _ => rfl, by omega⟩
  have hW : ∀ n, n < 3 → detInvariant (DetState.waitingForStability, n) := by
    intro n hn
    refine ⟨?_, hn⟩
    intro hc
    rcases hc with h2 | h2 <;> simp at h2
  match st with
  | (DetState.idle, c) =>
      simp only [processStateChange]
      split_ifs with h1
      · exact ⟨hCd, by simp⟩
      · exact ⟨⟨hzero, hlt⟩, by simp⟩
  | (DetState.changeDetected, c) =>
      simp only [processStateChange]
      split_ifs with h1
      · exact ⟨hW 1 (by omega), by simp⟩
      · exact ⟨⟨hzero, hlt⟩, by simp⟩
  | (DetState.waitingForStability, c) =>
      have hc : c < 3 := hlt
      simp only [processStateChange]
      split_ifs with h1 h2 h3
      · refine ⟨hIdle, fun _ => ⟨rfl, ?_⟩⟩
        have h2n : 3 ≤ c + 1 := h2
        omega
      · refine ⟨hW (c + 1) ?_, by simp⟩
        have h2n : ¬3 ≤ c + 1 := h2
        omega
      · exact ⟨hCd, by simp⟩
      · exact ⟨hW 0 (by omega), by simp⟩

/-- The state the detector reaches from (`idle`, 0) after a fraction
sequence (each tick keeps only the machine state). -/
def runDet (ps : List ℚ) : DetState × ℕ :=
  ps.foldl (fun st p => (processStateChange defaultCfg st p).1) (DetState.idle, 0)

theorem runDet_invariant_aux :
    ∀ (ps : List ℚ) (st : DetState × ℕ), detInvariant st →
      detInvariant (ps.foldl (fun st p => (processStateChange defaultCfg st p).1) st) := by
  intro ps
  induction ps with
  | nil => intro st h; exact h
  | cons p ps ih =>
      intro st h
      exact ih _ (processStateChange_step st p h).1

theorem runDet_invariant (ps : List ℚ) : detInvariant (runDet ps) :=
  runDet_invariant_aux ps (DetState.idle, 0) ⟨fun _ => rfl, by omega⟩

/-! ## Helper lemmas: the recognition dedup loop -/

theorem candOverlapAmount_comm (a b : Cand) :
    candOverlapAmount a b = candOverlapAmount b a := by
  unfold candOverlapAmount
  rw [min_comm, max_comm]

theorem candMinWidth_comm (a b : Cand) : candMinWidth a b = candMinWidth b a := by
  unfold candMinWidth
  rw [min_comm]

theorem overlapWithinBound_symm {a b : Cand} (h : overlapWithinBound a b) :
    overlapWithinBound b a := by
  unfold overlapWithinBound at h ⊢
  rwa [candOverlapAmount_comm, candMinWidth_comm]

theorem overlapWithinBound_of_not_tooMuch {a b : Cand}
    (h : overlapTooMuch a b = false) : overlapWithinBound a b := by
  unfold overlapTooMuch at h
  unfold overlapWithinBound
  exact not_lt.mp (of_decide_eq_false h)

theorem dedupAccept_pairwise :
    ∀ (cs acc : List Cand), List.Pairwise overlapWithinBound acc →
      List.Pairwise overlapWithinBound (dedupAccept acc cs)
  | [], _, h => h
  | c :: cs, acc, h => by
      by_cases hc : (acc.any fun o => overlapTooMuch c o) = true
      · simp only [dedupAccept, hc, if_true]
        exact dedupAccept_pairwise cs acc h
      · simp only [dedupAccept, hc, Bool.false_eq_true, if_false]
        apply dedupAccept_pairwise cs (acc ++ [c])
        rw [List.pairwise_append]
        refine ⟨h, List.pairwise_singleton _ _, ?_⟩
        intro a ha b hb
        have hb2 : b = c := by simpa using hb
        subst hb2
        have hfalse := List.any_eq_false.mp (Bool.eq_false_iff.mpr hc) a ha
        exact overlapWithinBound_symm
          (overlapWithinBound_of_not_tooMuch (Bool.eq_false_iff.mpr hfalse))

/-! ## Claim theorems -/

/-- C1: the claim says a second consecutive call of the Line Filter with
input normalizing to the same line is suppressed.  The code does not do
this: its repeat check reads `recentLines.at(recentLines.length)`, which
is always `undefined`, so the filter emits the identical line again.
Evaluating the two successive calls on the line `あ` shows the second
call also emits (`some`) instead of suppressing (`none`). -/
theorem c1_repeat_line_reemitted :
    filterOCRLine [] ['あ'] = (some ['あ'], [['あ']]) ∧
      filterOCRLine [['あ']] ['あ'] = (some ['あ'], [['あ'], ['あ']]) := by
  decide

/-- C2 counterexample: the merged output of `mergeOverlappingBoxes` is
not pairwise non-overlapping under `boxesOverlap`.  The L-shaped pair
`exPole`/`exBar` merges into union box [0,0,10,10], which overlaps the
separate region `exInner` = [5,5,6,6] even though `exInner` overlaps no
member of the group. -/
theorem c2_merged_regions_can_overlap :
    mergeOverlappingBoxes [exPole, exBar, exInner] =
        [⟨⟨0, 0, 10, 10⟩, 1⟩, ⟨⟨5, 5, 6, 6⟩, 1⟩] ∧
      boxesOverlap ⟨0, 0, 10, 10⟩ ⟨5, 5, 6, 6⟩ = true := by
  decide

/-- C2 amended: the merge step's groups are pairwise non-overlapping —
no input box of one group overlaps an input box of a different group —
and the returned regions are exactly the union-box collapses of those
groups; the union boxes themselves may still intersect. -/
theorem c2_groups_pairwise_separated (regions : List Region) :
    mergeOverlappingBoxes regions = (buildGroups regions).map collapseGroup ∧
      List.Pairwise groupsSeparated (buildGroups regions) := by
  constructor
  · unfold mergeOverlappingBoxes
    split_ifs with h
    · have : regions = [] := List.length_eq_zero.mp h
      subst this
      rfl
    · rfl
  · exact buildGroups_pairwise regions

/-- C4: from (`idle`, 0) with the default thresholds, the fraction
script [0.02, 0.005, 0.02, 0.005, 0.005, 0.005] fires the trigger
exactly once, on the 6th sample, and ends at (`idle`, 0); the spike at
index 3 resets the stable counter. -/
theorem c4_interrupted_script_fires_once :
    runScript defaultCfg (DetState.idle, 0)
        [0.02, 0.005, 0.02, 0.005, 0.005, 0.005] =
      ((DetState.idle, 0), [false, false, false, false, false, true]) := by
  simp only [runScript, processStateChange, defaultCfg, List.foldl]
  norm_num

/-- C5 counterexample: an absent inference result — or a result object
carrying no outputs at all — makes `detectTextRegions` throw during
output extraction (reading a property of `undefined`) instead of
returning an empty region list. -/
theorem c5_absent_output_throws :
    detectTextRegionsPost none 1 1 1 = Except.error () ∧
      extractDetOutputs (some []) = Except.error () := by
  exact ⟨rfl, rfl⟩

/-- C5 amended: when the inference result is present and the extraction
step obtains its box/score arrays — through the named `boxes`/`scores`
outputs or through the first-two-outputs positional fallback — an empty
score array makes `detectTextRegions` return an empty region list
without throwing; an absent result object (or one with no outputs)
instead throws in the extraction step. -/
theorem c5_empty_scores_give_empty_regions (res : List (String × List ℚ))
    (scale ow oh : ℚ) (bs : List ℚ)
    (h : extractDetOutputs (some res) = Except.ok (bs, [])) :
    detectTextRegionsPost (some res) scale ow oh = Except.ok [] := by
  unfold detectTextRegionsPost
  simp only [h]
  simp [detectedRegionsOf, mergeOverlappingBoxes, sortRegionsByY]

/-- C5 witness: a result map with named but empty outputs yields
`ok []`, and so does one with no named outputs whose positional
fallback finds an empty score array in the second output. -/
theorem c5_empty_scores_witness :
    detectTextRegionsPost (some [(boxesKey, []), (scoresKey, [])]) 1 20 20 =
        Except.ok [] ∧
      detectTextRegionsPost (some [("out0", [0, 0, 4, 4]), ("out1", [])]) 1 20 20 =
        Except.ok [] :=
  ⟨c5_empty_scores_give_empty_regions [(boxesKey, []), (scoresKey, [])] 1 20 20 []
      rfl,
    c5_empty_scores_give_empty_regions [("out0", [0, 0, 4, 4]), ("out1", [])] 1 20 20
      [0, 0, 4, 4] rfl⟩

/-- C3 counterexample: a reachable interleaving in which a sampler tick
lands between OCR start and OCR completion and still updates the
detector state and the stored frame.  After a first tick (stores the
black frame) and `performOCR` entry (busy flag set), a tick with the
white frame runs the comparison (fraction 1 > 0.015) and moves the
machine from `idle` to `changeDetected`. -/
theorem c3_tick_during_ocr_updates_state :
    runEvents initSys [SysEvent.tick frameBlack, SysEvent.ocrStart] =
        ⟨true, true, true, (DetState.idle, 0), some frameBlack⟩ ∧
      runEvents initSys
          [SysEvent.tick frameBlack, SysEvent.ocrStart, SysEvent.tick frameWhite] =
        ⟨true, true, true, (DetState.changeDetected, 0), some frameWhite⟩ := by
  constructor
  · rfl
  · simp only [runEvents, List.foldl, applyEvent, initSys, tickStep, ocrStartStep]
    norm_num [compareFrames, frameBlack, frameWhite, pixelDiff, absDiff,
      processStateChange, defaultCfg, List.countP_cons, List.countP_nil]

/-- C3 amended: the busy flag gates only `performOCR` itself — a call
entered while a pass is in flight returns with no state change — while
`checkFrame` never reads the flag: a tick behaves identically whatever
the value of `isProcessing`, performing its comparison and state-machine
update even during an in-flight pass. -/
theorem c3_busy_flag_gates_only_ocr :
    (∀ s : SysState, s.isProcessing = true → ocrStartStep s = s) ∧
      ∀ (s : SysState) (f : List Pixel) (b : Bool),
        tickStep { s with isProcessing := b } f =
          { tickStep s f with isProcessing := b } := by
  constructor
  · intro s h
    unfold ocrStartStep
    rw [if_pos h]
  · intro s f b
    cases s with
    | mk cap tim proc det lf =>
        unfold tickStep
        cases lf <;> split_ifs <;> rfl

/-- C3 witness: entering `performOCR` on a concrete busy state leaves
the state unchanged. -/
theorem c3_busy_witness :
    ocrStartStep ⟨true, true, true, (DetState.idle, 0), none⟩ =
      ⟨true, true, true, (DetState.idle, 0), none⟩ :=
  c3_busy_flag_gates_only_ocr.1 _ rfl

/-- C6: on the chain A=[0,0,10,10], B=[8,0,20,10], C=[18,0,30,10]
(A and C disjoint, both overlapping B) the reducer produces exactly one
merged region [0,0,30,10] carrying the maximum score; and in general the
merge step's groups partition the input, distinct groups never overlap,
every group is overlap-connected, and each group collapses to the
minimal enclosing rectangle of its members with the maximum member
score. -/
theorem c6_connected_components_collapse :
    mergeOverlappingBoxes [exA, exB, exC] = [⟨⟨0, 0, 30, 10⟩, 3⟩] ∧
      ∀ rs : List Region,
        ((buildGroups rs).flatten).Perm rs ∧
          List.Pairwise groupsSeparated (buildGroups rs) ∧
          ∀ G ∈ buildGroups rs,
            (∀ a ∈ G, ∀ b ∈ G, Reach a b) ∧
            (∀ q ∈ G, boxContains (collapseGroup G).box q.box) ∧
            (∀ b : Box, (∀ q ∈ G, boxContains b q.box) →
              boxContains b (collapseGroup G).box) ∧
            (∀ q ∈ G, q.score ≤ (collapseGroup G).score) ∧
            (collapseGroup G).score ∈ G.map Region.score := by
  constructor
  · decide
  · intro rs
    refine ⟨buildGroups_flatten_perm rs, buildGroups_pairwise rs, ?_⟩
    intro G hG
    obtain ⟨r, ext, hGr, hlink⟩ := buildGroupsAux_seeded rs.length rs G hG
    have hne : G ≠ [] := by rw [hGr]; simp
    exact ⟨group_members_reach G r ext hGr hlink, collapseGroup_contains G,
      collapseGroup_minimal G hne, collapseGroup_score_ub G,
      collapseGroup_score_mem G hne⟩

/-- C6 witness: on the concrete A-B-C chain, the single group contains
all three regions, A reaches C through the overlap chain, and the
collapsed box encloses C. -/
theorem c6_chain_witness :
    [exA, exB, exC] ∈ buildGroups [exA, exB, exC] ∧
      Reach exA exC ∧
      boxContains (collapseGroup [exA, exB, exC]).box exC.box := by
  have hG : [exA, exB, exC] ∈ buildGroups [exA, exB, exC] := by decide
  obtain ⟨hreach, hcont, -⟩ :=
    (c6_connected_components_collapse.2 [exA, exB, exC]).2.2 [exA, exB, exC] hG
  exact ⟨hG, hreach exA (by decide) exC (by decide), hcont exC (by decide)⟩

/-- C7 counterexample: normalization is not idempotent.  A run of three
`」` normalizes to `「」」` (the pair collapse leaves a double, then an
opener is prepended), which a second pass shrinks to `「」`; and a
full-width space shielding a leading ASCII run (`　a あ` → `a あ`)
leaves text a second pass strips further (`a あ` → `あ`). -/
theorem c7_normalization_not_idempotent :
    normalizeLine ['」', '」', '」'] = some ['「', '」', '」'] ∧
      normalizeLine ['「', '」', '」'] = some ['「', '」'] ∧
      normalizeLine ['　', 'a', ' ', 'あ'] = some ['a', ' ', 'あ'] ∧
      normalizeLine ['a', ' ', 'あ'] = some ['あ'] := by
  decide

/-- C7 amended: normalization is idempotent on every normalization
result that contains no leftover doubled bracket glyph (`」」` / `「「`)
and whose edge characters are not ASCII — the two escapes exhibited by
the counterexample. -/
theorem c7_normalization_idempotent_on_clean (s t : List Char)
    (h : normalizeLine s = some t)
    (hd1 : hasDouble '」' t = false) (hd2 : hasDouble '「' t = false)
    (he : noAsciiEdge t = true) : normalizeLine t = some t := by
  have hts : normCore s = t ∧ normCore s ≠ [] := by
    simp only [normalizeLine] at h
    by_cases hc : normCore s = []
    · rw [if_pos hc] at h
      cases h
    · rw [if_neg hc] at h
      exact ⟨Option.some.inj h, hc⟩
  obtain ⟨hteq, hne⟩ := hts
  obtain ⟨f1, f2, f3, f4, f5, f6, f7⟩ := normCore_facts s
  rw [hteq] at f1 f2 f3 f4 f5 f6 f7
  have hcore : normCore t = t := normCore_no_op f1 f2 f3 f4 f5 f6 f7 hd1 hd2 he
  simp only [normalizeLine, hcore]
  rw [if_neg (hteq ▸ hne)]

/-- C7 witness: an already-clean normalized line (`「あ」`) is a fixed
point of normalization. -/
theorem c7_idempotent_witness :
    normalizeLine ['「', 'あ', '」'] = some ['「', 'あ', '」'] ∧
      hasDouble '」' ['「', 'あ', '」'] = false ∧
      noAsciiEdge ['「', 'あ', '」'] = true :=
  ⟨c7_normalization_idempotent_on_clean ['「', 'あ', '」'] ['「', 'あ', '」']
      (by decide) (by decide) (by decide) (by decide),
    by decide, by decide⟩

/-- C8: the frame differ returns 0 when comparing a frame with itself,
and is symmetric on frames of equal dimensions, with a pixel counted as
changed when its summed absolute RGB difference exceeds the per-pixel
threshold 20. -/
theorem c8_differ_self_zero_and_symm :
    (∀ A : List Pixel, compareFrames A A 20 = 0) ∧
      ∀ A B : List Pixel, A.length = B.length →
        compareFrames A B 20 = compareFrames B A 20 := by
  constructor
  · intro A
    unfold compareFrames
    have hcount : ((A.zip A).countP fun pq => 20 < pixelDiff pq.1 pq.2) = 0 := by
      rw [List.countP_eq_zero]
      intro pq hpq
      have hself := zip_self_eq A pq hpq
      simp [hself, pixelDiff, absDiff_self]
    rw [hcount]
    simp
  · intro A B h
    unfold compareFrames
    rw [show B.zip A = (A.zip B).map Prod.swap from (List.zip_swap A B).symm,
      List.countP_map]
    have hpred :
        ((fun pq : Pixel × Pixel => decide (20 < pixelDiff pq.1 pq.2)) ∘ Prod.swap) =
          fun pq : Pixel × Pixel => decide (20 < pixelDiff pq.1 pq.2) := by
      funext pq
      simp [Function.comp, pixelDiff_comm]
    rw [hpred, h]

/-- C8 witness: applying the differ theorems at the concrete one-pixel
black and white frames. -/
theorem c8_differ_witness :
    compareFrames frameBlack frameBlack 20 = 0 ∧
      compareFrames frameBlack frameWhite 20 = compareFrames frameWhite frameBlack 20 :=
  ⟨c8_differ_self_zero_and_symm.1 frameBlack,
    c8_differ_self_zero_and_symm.2 frameBlack frameWhite rfl⟩

/-- C9: from (`idle`, 0), after any fraction sequence the stable counter
is 0 in `idle` and `changeDetected` and always strictly below
`stabilityFrames` = 3; a tick whose trigger fires had counter exactly
3 = stabilityFrames transiently (previous counter + 1) and resets to
(`idle`, 0). -/
theorem c9_counter_invariant (ps : List ℚ) :
    detInvariant (runDet ps) ∧
      ∀ p : ℚ, (processStateChange defaultCfg (runDet ps) p).2 = true →
        (processStateChange defaultCfg (runDet ps) p).1 = (DetState.idle, 0) ∧
          (runDet ps).2 + 1 = 3 := by
  refine ⟨runDet_invariant ps, ?_⟩
  intro p hf
  exact (processStateChange_step (runDet ps) p (runDet_invariant ps)).2 hf

/-- C9 witness: after [0.02, 0.005, 0.005] the next low tick fires, and
the theorem yields the reset to (`idle`, 0) from counter 2 + 1 = 3. -/
theorem c9_invariant_witness :
    (processStateChange defaultCfg (runDet [0.02, 0.005, 0.005]) 0.005).2 = true ∧
      (processStateChange defaultCfg (runDet [0.02, 0.005, 0.005]) 0.005).1 =
        (DetState.idle, 0) ∧
      (runDet [0.02, 0.005, 0.005]).2 + 1 = 3 := by
  have hfire :
      (processStateChange defaultCfg (runDet [0.02, 0.005, 0.005]) 0.005).2 = true := by
    simp only [runDet, List.foldl, processStateChange, defaultCfg]
    norm_num
  obtain ⟨h1, h2⟩ := (c9_counter_invariant [0.02, 0.005, 0.005]).2 0.005 hfire
  exact ⟨hfire, h1, h2⟩

/-- C10: any two candidates surviving the recognition dedup overlap by
at most `X_OVERLAP` (0.3) of the narrower interval's width, and the
accepted candidates are returned sorted by interval start ascending. -/
theorem c10_dedup_bound_and_sorted (labels : List ℕ) (boxes scores : List ℚ)
    (effW origW origH : ℚ) :
    List.Pairwise overlapWithinBound
        (decodeMeikiOCROutput labels boxes scores effW origW origH).2 ∧
      List.Pairwise (fun a b : Cand => a.x1 ≤ b.x1)
        (decodeMeikiOCROutput labels boxes scores effW origW origH).2 := by
  simp only [decodeMeikiOCROutput, sortByXAsc]
  set dl := dedupAccept []
    (sortByConfDesc (buildCands labels boxes scores effW origW origH)) with hdl
  have hperm := List.mergeSort_perm dl fun a b => decide (a.x1 ≤ b.x1)
  constructor
  · have hpd : List.Pairwise overlapWithinBound dl :=
      dedupAccept_pairwise _ [] List.Pairwise.nil
    exact (hperm.pairwise_iff fun hab => overlapWithinBound_symm hab).mpr hpd
  · have hs := @List.sorted_mergeSort Cand (fun a b => decide (a.x1 ≤ b.x1))
      (fun a b c hab hbc =>
        decide_eq_true (le_trans (of_decide_eq_true hab) (of_decide_eq_true hbc)))
      (fun a b => by
        rcases le_total a.x1 b.x1 with h | h <;> simp [h])
      dl
    exact hs.imp fun hab => of_decide_eq_true hab

end Ushio
